import Mathlib

/-!
Shallow embedding of the trace aggregation engine of
`src/perf/perf-core/src/lib.rs` (hierarchical code-instrumentation
profiler): span identities, the trace table, the call-stack tracker,
the scoped span guard (`ScopedTrace::new` / `impl Drop for ScopedTrace`),
the cycle-clock calibration (`estimate_cpu_freq`) and the profiler
lifecycle (`begin_profile` / `end_and_print_profile`).

Cycle-counter readings are modelled as `Nat` values supplied as
parameters (the hardware counter is an input to the engine); the
signed `i64` accumulator `elapsed_exclusive` is modelled as `Int`,
the unsigned `u64`/`usize` fields as `Nat`.  The global mutable state
(`trace_map`, `CURRENT_TRACE`, `TRACE_ID`) is modelled as an explicit
state record threaded through the operations.  Fallible operations
(the `unwrap` calls in `drop`, the division in `estimate_cpu_freq`)
return `Option`, with `none` standing for a panic.
-/

/-- Span kind: whole function, named loop, or named section
(`enum TraceType` in the source). -/
inductive TraceType where
  | Fn : TraceType
  | Loop : String → TraceType
  | Section : String → TraceType
deriving DecidableEq

/-- Span identity: enclosing function name plus span kind
(`struct TraceId` in the source). -/
structure TraceId where
  enclosing_function_name : String
  ty : TraceType
deriving DecidableEq

/-- Accumulated per-span statistics (`struct Trace` in the source).
`elapsed_exclusive` is `i64` (signed, corrected by subtraction),
the other fields are unsigned. -/
structure Trace where
  elapsed_exclusive : Int
  elapsed_inclusive : Nat
  hit_count : Nat
  order : Nat
deriving DecidableEq

/-- The trace table: a finite association of span identities to
statistics (the `HashMap<TraceId, Trace>` of the source). -/
abbrev TraceMap := List (TraceId × Trace)

/-- Map lookup (`HashMap::get`). -/
def lookupTrace : TraceMap → TraceId → Option Trace
  | [], _ => none
  | (k, v) :: rest, a => if k = a then some v else lookupTrace rest a

/-- Map insert-or-replace (`HashMap::entry(..).or_default()` writes and
`get_mut` writes both go through this). -/
def setTrace : TraceMap → TraceId → Trace → TraceMap
  | [], a, tr => [(a, tr)]
  | (k, v) :: rest, a, tr =>
      if k = a then (k, tr) :: rest else (k, v) :: setTrace rest a tr

/-- The process-wide mutable profiler state: the trace table
(`trace_map()`), the call-stack tracker (`CURRENT_TRACE`) and the
order counter (`TRACE_ID`). -/
structure Globals where
  trace_map : TraceMap
  current_trace : Option TraceId
  trace_id : Nat
deriving DecidableEq

/-- State before any span was entered: empty table, no active span,
counter zero. -/
def initGlobals : Globals := ⟨[], none, 0⟩

/-- `impl Default for Trace`: zero counters and a freshly bumped
`order` (the Rust code pre-increments `TRACE_ID` and uses the new
value, so the first span receives order `1`). -/
def Trace.fresh (ord : Nat) : Trace := ⟨0, 0, 0, ord⟩

/-- The scoped span guard / entry token (`struct ScopedTrace`). -/
structure ScopedTrace where
  trace_id : TraceId
  parent : Option TraceId
  begin : Nat
  old_elapsed_inclusive : Nat

/-- `ScopedTrace::new`: look up or default-insert the statistics entry,
record the entry cycle count, snapshot `elapsed_inclusive`, capture the
current span as parent and make this identity current.  `now` is the
value `read_cpu_timer()` returns at entry. -/
def ScopedTrace.new (id : TraceId) (now : Nat) (g : Globals) :
    ScopedTrace × Globals :=
  match lookupTrace g.trace_map id with
  | some tr =>
      (⟨id, g.current_trace, now, tr.elapsed_inclusive⟩,
       ⟨g.trace_map, some id, g.trace_id⟩)
  | none =>
      (⟨id, g.current_trace, now, 0⟩,
       ⟨setTrace g.trace_map id (Trace.fresh (g.trace_id + 1)),
        some id, g.trace_id + 1⟩)

/-- `impl Drop for ScopedTrace`: compute the duration, add it to the
span's exclusive time, bump the hit count, overwrite the inclusive time
with the entry snapshot plus the duration, restore the call-stack
tracker, and subtract the duration from the parent's exclusive time.
`now` is the value `read_cpu_timer()` returns at exit; `none` models a
panic of one of the two `unwrap` calls. -/
def ScopedTrace.drop (tok : ScopedTrace) (now : Nat) (g : Globals) :
    Option Globals :=
  match lookupTrace g.trace_map tok.trace_id with
  | none => none
  | some tr =>
      let time : Nat := now - tok.begin
      let m1 := setTrace g.trace_map tok.trace_id
        ⟨tr.elapsed_exclusive + (time : Int),
         tok.old_elapsed_inclusive + time,
         tr.hit_count + 1, tr.order⟩
      match tok.parent with
      | none => some ⟨m1, none, g.trace_id⟩
      | some p =>
          match lookupTrace m1 p with
          | none => none
          | some ptr =>
              some ⟨setTrace m1 p
                      ⟨ptr.elapsed_exclusive - (time : Int),
                       ptr.elapsed_inclusive, ptr.hit_count, ptr.order⟩,
                    some p, g.trace_id⟩

/-! ### Well-nested executions

Under the guard discipline every execution of the instrumented program
is a sequence of well-nested enter/exit pairs, i.e. a forest of spans.
`SpanForest` encodes such a forest in first-child/next-sibling form:
`grow id tEnter children tExit rest` is a span of identity `id` entered
at cycle count `tEnter`, containing the well-nested sub-execution
`children`, exited at cycle count `tExit`, followed by the sibling
execution `rest`. -/

inductive SpanForest where
  | nil : SpanForest
  | grow : TraceId → Nat → SpanForest → Nat → SpanForest → SpanForest

/-- Run a well-nested execution: each span creates its guard, runs its
children, and drops the guard (LIFO, exactly as Rust drops nested
scope guards). -/
def runForest : SpanForest → Globals → Option Globals
  | .nil, g => some g
  | .grow id te ch tx rest, g =>
      let (tok, g1) := ScopedTrace.new id te g
      match runForest ch g1 with
      | none => none
      | some g2 =>
          match tok.drop tx g2 with
          | none => none
          | some g3 => runForest rest g3

/-! ### Derived quantities of an execution -/

/-- Total duration of all spans of identity `a` in the forest. -/
def durF (a : TraceId) : SpanForest → Nat
  | .nil => 0
  | .grow i te ch tx rest =>
      (if i = a then tx - te else 0) + durF a ch + durF a rest

/-- Total duration of the spans whose dynamic parent has identity `a`;
`c` is the identity of the span enclosing the whole forest (`none` at
top level). -/
def childF (c : Option TraceId) (a : TraceId) : SpanForest → Nat
  | .nil => 0
  | .grow i te ch tx rest =>
      (if c = some a then tx - te else 0) + childF (some i) a ch +
        childF c a rest

/-- Total duration of the `a`-spans that are not nested inside another
`a`-span (the outermost invocations of identity `a`). -/
def outF (a : TraceId) : SpanForest → Nat
  | .nil => 0
  | .grow i te ch tx rest =>
      (if i = a then tx - te else outF a ch) + outF a rest

/-- Sum of the durations of the top-level spans of the forest. -/
def topDur : SpanForest → Nat
  | .nil => 0
  | .grow _ te _ tx rest => (tx - te) + topDur rest

/-- Does identity `a` occur anywhere in the forest? -/
def occursF (a : TraceId) : SpanForest → Bool
  | .nil => false
  | .grow i _ ch _ rest =>
      if i = a then true else occursF a ch || occursF a rest

/-- Is the forest empty? -/
def isNilF : SpanForest → Bool
  | .nil => true
  | .grow _ _ _ _ _ => false

/-- Does some span of identity `a` have a measured nested child span? -/
def hasChildF (a : TraceId) : SpanForest → Bool
  | .nil => false
  | .grow i _ ch _ rest =>
      (if i = a then !isNilF ch else false) || hasChildF a ch ||
        hasChildF a rest

/-- No span identity is nested inside a span of the same identity
(no recursive re-entry anywhere in the forest). -/
def nestFreeF : SpanForest → Bool
  | .nil => true
  | .grow i _ ch _ rest => !occursF i ch && nestFreeF ch && nestFreeF rest

/-- Every span of the forest has positive duration. -/
def posF : SpanForest → Bool
  | .nil => true
  | .grow _ te ch tx rest => decide (te < tx) && posF ch && posF rest

/-- The cycle readings of the execution are strictly increasing:
everything happens strictly after `lo` and strictly before `hi`. -/
def strictF (lo : Nat) : SpanForest → Nat → Bool
  | .nil, hi => decide (lo < hi)
  | .grow _ te ch tx rest, hi =>
      decide (lo < te) && strictF te ch tx && strictF tx rest hi

/-- The top-level spans tile the window `[lo, hi]` exactly: the first
span enters at `lo`, each next span enters when the previous one exits,
and the last span exits at `hi` (no time outside any span). -/
def tiles (lo : Nat) : SpanForest → Nat → Bool
  | .nil, hi => decide (lo = hi)
  | .grow _ te _ tx rest, hi => decide (lo = te) && tiles tx rest hi

/-- Each top-level span exits no earlier than it enters. -/
def topLe : SpanForest → Bool
  | .nil => true
  | .grow _ te _ tx rest => decide (te ≤ tx) && topLe rest

/-- The distinct identities of the forest in first-seen order, appended
to the already-seen list `seen`. -/
def newIdsF : SpanForest → List TraceId → List TraceId
  | .nil, seen => seen
  | .grow i _ ch _ rest, seen =>
      let seen1 := if i ∈ seen then seen else seen ++ [i]
      newIdsF rest (newIdsF ch seen1)

/-- Index of an element in a list (length of the list if absent). -/
def listIdx : List TraceId → TraceId → Nat
  | [], _ => 0
  | b :: rest, a => if b = a then 0 else listIdx rest a + 1

/-! ### Views of the state -/

/-- Exclusive time of identity `a` (0 if the identity has no entry). -/
def exclVal (g : Globals) (a : TraceId) : Int :=
  (lookupTrace g.trace_map a).elim 0 Trace.elapsed_exclusive

/-- Inclusive time of identity `a` (0 if the identity has no entry). -/
def inclVal (g : Globals) (a : TraceId) : Nat :=
  (lookupTrace g.trace_map a).elim 0 Trace.elapsed_inclusive

/-- Is identity `a` present in the trace table? -/
def presentB (g : Globals) (a : TraceId) : Bool :=
  (lookupTrace g.trace_map a).isSome

/-- Sum of the exclusive times of all entries of the trace table. -/
def sumExcl (m : TraceMap) : Int :=
  (m.map (fun kv => kv.2.elapsed_exclusive)).sum

/-- State invariant maintained by the guard discipline: the currently
active span, if any, has an entry in the trace table. -/
def TrackerInv (g : Globals) : Prop :=
  ∀ p, g.current_trace = some p → (lookupTrace g.trace_map p).isSome = true

/-! ### Basic lemmas about the trace table -/

theorem lookup_set (m : TraceMap) (k : TraceId) (v : Trace) (a : TraceId) :
    lookupTrace (setTrace m k v) a =
      if k = a then some v else lookupTrace m a := by
  induction m with
  | nil =>
      by_cases h : k = a <;> simp [setTrace, lookupTrace, h]
  | cons kv rest ih =>
      obtain ⟨k0, v0⟩ := kv
      by_cases h0 : k0 = k
      · subst h0
        by_cases h : k0 = a <;> simp [setTrace, lookupTrace, h]
      · by_cases h : k0 = a
        · subst h
          have hk : ¬k = k0 := fun h' => h0 h'.symm
          simp [setTrace, lookupTrace, h0, hk]
        · simp [setTrace, lookupTrace, h0, h, ih]

theorem sumExcl_set_present (m : TraceMap) (k : TraceId) (v v0 : Trace)
    (h : lookupTrace m k = some v0) :
    sumExcl (setTrace m k v) =
      sumExcl m + v.elapsed_exclusive - v0.elapsed_exclusive := by
  induction m with
  | nil => simp [lookupTrace] at h
  | cons kv rest ih =>
      obtain ⟨k0, w⟩ := kv
      by_cases h0 : k0 = k
      · subst h0
        simp [lookupTrace] at h
        subst h
        simp [setTrace, sumExcl]
        ring
      · simp [lookupTrace, h0] at h
        simp [setTrace, sumExcl, h0] at ih ⊢
        rw [ih h]
        ring

theorem sumExcl_set_absent (m : TraceMap) (k : TraceId) (v : Trace)
    (h : lookupTrace m k = none) :
    sumExcl (setTrace m k v) = sumExcl m + v.elapsed_exclusive := by
  induction m with
  | nil => simp [setTrace, sumExcl]
  | cons kv rest ih =>
      obtain ⟨k0, w⟩ := kv
      by_cases h0 : k0 = k
      · subst h0
        simp [lookupTrace] at h
      · simp [lookupTrace, h0] at h
        simp [setTrace, sumExcl, h0] at ih ⊢
        rw [ih h]
        ring

/-! ### Specifications of the guard operations -/

theorem new_spec (id : TraceId) (now : Nat) (g : Globals) :
    ∃ tok g1, ScopedTrace.new id now g = (tok, g1) ∧
      tok.trace_id = id ∧ tok.parent = g.current_trace ∧ tok.begin = now ∧
      tok.old_elapsed_inclusive = inclVal g id ∧
      g1.current_trace = some id ∧
      (∀ a, exclVal g1 a = exclVal g a) ∧
      (∀ a, inclVal g1 a = inclVal g a) ∧
      (∀ a, presentB g a = true → presentB g1 a = true) ∧
      presentB g1 id = true ∧
      sumExcl g1.trace_map = sumExcl g.trace_map := by
  cases hl : lookupTrace g.trace_map id with
  | some tr =>
      refine ⟨⟨id, g.current_trace, now, tr.elapsed_inclusive⟩,
        ⟨g.trace_map, some id, g.trace_id⟩,
        by simp [ScopedTrace.new, hl], rfl, rfl, rfl,
        by simp [inclVal, hl], rfl, fun a => rfl, fun a => rfl,
        fun a h => h, by simp [presentB, hl], rfl⟩
  | none =>
      refine ⟨⟨id, g.current_trace, now, 0⟩,
        ⟨setTrace g.trace_map id (Trace.fresh (g.trace_id + 1)),
         some id, g.trace_id + 1⟩,
        by simp [ScopedTrace.new, hl], rfl, rfl, rfl,
        by simp [inclVal, hl], rfl, ?_, ?_, ?_, ?_, ?_⟩
      · intro a
        simp only [exclVal, lookup_set]
        by_cases h : id = a
        · subst h
          simp [hl, Trace.fresh]
        · simp [h]
      · intro a
        simp only [inclVal, lookup_set]
        by_cases h : id = a
        · subst h
          simp [hl, Trace.fresh]
        · simp [h]
      · intro a h
        simp only [presentB, lookup_set] at h ⊢
        by_cases hia : id = a <;> simp [hia] at h ⊢
        exact h
      · simp [presentB, lookup_set]
      · simp [sumExcl_set_absent _ _ _ hl, Trace.fresh]

theorem drop_spec (tok : ScopedTrace) (now : Nat) (g : Globals) (tr : Trace)
    (hself : lookupTrace g.trace_map tok.trace_id = some tr)
    (hpar : ∀ p, tok.parent = some p → presentB g p = true) :
    ∃ g', tok.drop now g = some g'
      ∧ g'.current_trace = tok.parent
      ∧ g'.trace_id = g.trace_id
      ∧ (∀ a, presentB g' a = presentB g a)
      ∧ (∀ a, exclVal g' a = exclVal g a
            + (if tok.trace_id = a then ((now - tok.begin : Nat) : Int) else 0)
            - (if tok.parent = some a then ((now - tok.begin : Nat) : Int) else 0))
      ∧ (∀ a, inclVal g' a = if tok.trace_id = a
            then tok.old_elapsed_inclusive + (now - tok.begin) else inclVal g a)
      ∧ (∀ a, (lookupTrace g'.trace_map a).map Trace.order =
            (lookupTrace g.trace_map a).map Trace.order)
      ∧ sumExcl g'.trace_map = sumExcl g.trace_map +
          (if tok.parent = none then ((now - tok.begin : Nat) : Int) else 0) := by
  cases hp : tok.parent with
  | none =>
      refine ⟨⟨setTrace g.trace_map tok.trace_id
          ⟨tr.elapsed_exclusive + ((now - tok.begin : Nat) : Int),
           tok.old_elapsed_inclusive + (now - tok.begin),
           tr.hit_count + 1, tr.order⟩, none, g.trace_id⟩,
        by simp [ScopedTrace.drop, hself, hp], rfl, rfl, ?_, ?_, ?_, ?_, ?_⟩
      · intro a
        simp only [presentB, lookup_set]
        by_cases h : tok.trace_id = a
        · subst h
          simp [hself]
        · simp [h]
      · intro a
        simp only [exclVal, lookup_set]
        by_cases h : tok.trace_id = a
        · subst h
          simp [hself]
        · simp [h]
      · intro a
        simp only [inclVal, lookup_set]
        by_cases h : tok.trace_id = a
        · subst h
          simp
        · simp [h]
      · intro a
        simp only [lookup_set]
        by_cases h : tok.trace_id = a
        · subst h
          simp [hself]
        · simp [h]
      · rw [sumExcl_set_present _ _ _ _ hself, if_pos rfl]
        ring
  | some p =>
      have hpres : presentB g p = true := hpar p hp
      by_cases hpi : tok.trace_id = p
      · -- the parent entry is the span itself (recursive re-entry): the
        -- parent correction hits the freshly written entry
        subst hpi
        refine ⟨⟨setTrace (setTrace g.trace_map tok.trace_id
            ⟨tr.elapsed_exclusive + ((now - tok.begin : Nat) : Int),
             tok.old_elapsed_inclusive + (now - tok.begin),
             tr.hit_count + 1, tr.order⟩) tok.trace_id
            ⟨tr.elapsed_exclusive + ((now - tok.begin : Nat) : Int)
               - ((now - tok.begin : Nat) : Int),
             tok.old_elapsed_inclusive + (now - tok.begin),
             tr.hit_count + 1, tr.order⟩, some tok.trace_id, g.trace_id⟩,
          by simp [ScopedTrace.drop, hself, hp, lookup_set],
          rfl, rfl, ?_, ?_, ?_, ?_, ?_⟩
        · intro a
          simp only [presentB, lookup_set]
          by_cases h : tok.trace_id = a
          · subst h
            simp [hself]
          · simp [h]
        · intro a
          simp only [exclVal, lookup_set]
          by_cases h : tok.trace_id = a
          · subst h
            simp [hself]
          · simp [h]
        · intro a
          simp only [inclVal, lookup_set]
          by_cases h : tok.trace_id = a
          · subst h
            simp
          · simp [h]
        · intro a
          simp only [lookup_set]
          by_cases h : tok.trace_id = a
          · subst h
            simp [hself]
          · simp [h]
        · have h1 := sumExcl_set_present g.trace_map tok.trace_id
            ⟨tr.elapsed_exclusive + ((now - tok.begin : Nat) : Int),
             tok.old_elapsed_inclusive + (now - tok.begin),
             tr.hit_count + 1, tr.order⟩ tr hself
          have h2 := sumExcl_set_present (setTrace g.trace_map tok.trace_id
            ⟨tr.elapsed_exclusive + ((now - tok.begin : Nat) : Int),
             tok.old_elapsed_inclusive + (now - tok.begin),
             tr.hit_count + 1, tr.order⟩) tok.trace_id
            ⟨tr.elapsed_exclusive + ((now - tok.begin : Nat) : Int)
               - ((now - tok.begin : Nat) : Int),
             tok.old_elapsed_inclusive + (now - tok.begin),
             tr.hit_count + 1, tr.order⟩
            ⟨tr.elapsed_exclusive + ((now - tok.begin : Nat) : Int),
             tok.old_elapsed_inclusive + (now - tok.begin),
             tr.hit_count + 1, tr.order⟩ (by simp [lookup_set])
          rw [h2, h1,
            if_neg (show ¬((some tok.trace_id : Option TraceId) = none) from by simp)]
          ring
      · -- distinct parent entry
        have hpres' : ∃ ptr, lookupTrace g.trace_map p = some ptr := by
          simpa [presentB, Option.isSome_iff_exists] using hpres
        obtain ⟨ptr, hptr⟩ := hpres'
        have hm1 : lookupTrace (setTrace g.trace_map tok.trace_id
            ⟨tr.elapsed_exclusive + ((now - tok.begin : Nat) : Int),
             tok.old_elapsed_inclusive + (now - tok.begin),
             tr.hit_count + 1, tr.order⟩) p = some ptr := by
          simp [lookup_set, hpi, hptr]
        refine ⟨⟨setTrace (setTrace g.trace_map tok.trace_id
            ⟨tr.elapsed_exclusive + ((now - tok.begin : Nat) : Int),
             tok.old_elapsed_inclusive + (now - tok.begin),
             tr.hit_count + 1, tr.order⟩) p
            ⟨ptr.elapsed_exclusive - ((now - tok.begin : Nat) : Int),
             ptr.elapsed_inclusive, ptr.hit_count, ptr.order⟩,
           some p, g.trace_id⟩,
          by simp [ScopedTrace.drop, hself, hp, hm1],
          rfl, rfl, ?_, ?_, ?_, ?_, ?_⟩
        · intro a
          simp only [presentB, lookup_set]
          by_cases h1 : p = a
          · subst h1
            simp [hptr]
          · by_cases h2 : tok.trace_id = a
            · subst h2
              simp [hself, h1]
            · simp [h1, h2]
        · intro a
          have hsome : ((some p : Option TraceId) = some a) = (p = a) := by simp
          simp only [exclVal, lookup_set, hsome]
          by_cases h1 : p = a
          · subst h1
            have h2 : ¬tok.trace_id = p := hpi
            simp [h2, hptr]
          · by_cases h2 : tok.trace_id = a
            · subst h2
              simp [hself, h1]
            · simp [h1, h2]
        · intro a
          simp only [inclVal, lookup_set]
          by_cases h1 : p = a
          · subst h1
            have h2 : ¬tok.trace_id = p := hpi
            simp [h2, hptr, hpi]
          · by_cases h2 : tok.trace_id = a
            · subst h2
              simp [h1]
            · simp [h1, h2]
        · intro a
          simp only [lookup_set]
          by_cases h1 : p = a
          · subst h1
            have h2 : ¬tok.trace_id = p := hpi
            simp [h2, hptr]
          · by_cases h2 : tok.trace_id = a
            · subst h2
              simp [hself, h1]
            · simp [h1, h2]
        · have h1 := sumExcl_set_present g.trace_map tok.trace_id
            ⟨tr.elapsed_exclusive + ((now - tok.begin : Nat) : Int),
             tok.old_elapsed_inclusive + (now - tok.begin),
             tr.hit_count + 1, tr.order⟩ tr hself
          have h2 := sumExcl_set_present _ p
            ⟨ptr.elapsed_exclusive - ((now - tok.begin : Nat) : Int),
             ptr.elapsed_inclusive, ptr.hit_count, ptr.order⟩ ptr hm1
          rw [h2, h1,
            if_neg (show ¬((some p : Option TraceId) = none) from by simp)]
          ring

/-! ### The master accounting theorem for well-nested executions -/

theorem runForest_master (f : SpanForest) :
    ∀ g : Globals, TrackerInv g →
    ∃ g', runForest f g = some g'
      ∧ g'.current_trace = g.current_trace
      ∧ TrackerInv g'
      ∧ (∀ a, presentB g a = true → presentB g' a = true)
      ∧ (∀ a, exclVal g' a = exclVal g a + (durF a f : Int)
            - (childF g.current_trace a f : Int))
      ∧ (∀ a, inclVal g' a = inclVal g a + outF a f)
      ∧ sumExcl g'.trace_map = sumExcl g.trace_map +
          (if g.current_trace = none then (topDur f : Int) else 0) := by
  induction f with
  | nil =>
      intro g hInv
      refine ⟨g, rfl, rfl, hInv, fun a h => h, ?_, ?_, ?_⟩
      · intro a
        simp [durF, childF]
      · intro a
        simp [outF]
      · cases g.current_trace <;> simp [topDur]
  | grow i te ch tx rest ihc ihr =>
      intro g hInv
      obtain ⟨tok, g1, hnew, htid, hparq, hbeg, hold, hcur1, hexcl1, hincl1,
        hmono1, hpres1, hsum1⟩ := new_spec i te g
      have hInv1 : TrackerInv g1 := by
        intro q hq
        rw [hcur1] at hq
        obtain rfl := Option.some.inj hq
        exact hpres1
      obtain ⟨g2, hrun2, hcur2, hInv2, hmono2, hexcl2, hincl2, hsum2⟩ :=
        ihc g1 hInv1
      have hpres2i : presentB g2 i = true := hmono2 i hpres1
      have htr2 : ∃ tr2, lookupTrace g2.trace_map i = some tr2 := by
        simpa [presentB, Option.isSome_iff_exists] using hpres2i
      obtain ⟨tr2, htr2⟩ := htr2
      have hpar2 : ∀ p, tok.parent = some p → presentB g2 p = true := by
        intro p hp
        rw [hparq] at hp
        exact hmono2 p (hmono1 p (hInv p hp))
      obtain ⟨g3, hdrop, hcur3, hgid3, hpresEq3, hexcl3, hincl3, hord3, hsum3⟩ :=
        drop_spec tok tx g2 tr2 (by rw [htid]; exact htr2) hpar2
      have hInv3 : TrackerInv g3 := by
        intro q hq
        rw [hcur3, hparq] at hq
        exact (hpresEq3 q).trans (hmono2 q (hmono1 q (hInv q hq)))
      obtain ⟨g4, hrun4, hcur4, hInv4, hmono4, hexcl4, hincl4, hsum4⟩ :=
        ihr g3 hInv3
      refine ⟨g4, ?_, ?_, hInv4, ?_, ?_, ?_, ?_⟩
      · simp only [runForest, hnew, hrun2, hdrop]
        exact hrun4
      · rw [hcur4, hcur3, hparq]
      · intro a h
        exact hmono4 a ((hpresEq3 a).trans (hmono2 a (hmono1 a h)))
      · intro a
        have e4 := hexcl4 a
        have e3 := hexcl3 a
        have e2 := hexcl2 a
        have e1 := hexcl1 a
        rw [hcur3, hparq] at e4
        rw [htid, hparq, hbeg] at e3
        rw [hcur1] at e2
        rw [e1] at e2
        simp only [durF, childF]
        split_ifs at e3 ⊢ <;> omega
      · intro a
        have i4 := hincl4 a
        have i3 := hincl3 a
        have i2 := hincl2 a
        have i1 := hincl1 a
        rw [htid, hold, hbeg] at i3
        rw [i1] at i2
        simp only [outF]
        by_cases h1 : i = a
        · subst h1
          rw [if_pos rfl] at i3
          rw [if_pos rfl]
          omega
        · rw [if_neg h1] at i3
          rw [if_neg h1]
          omega
      · have s4 := hsum4
        have s3 := hsum3
        have s2 := hsum2
        rw [hcur3, hparq] at s4
        rw [hparq, hbeg] at s3
        rw [hcur1] at s2
        rw [if_neg (show ¬((some i : Option TraceId) = none) from by simp),
          hsum1] at s2
        simp only [topDur]
        split_ifs at s3 s4 ⊢ <;> omega

/-! ### Combinatorial lemmas about span forests -/

theorem isNilF_iff (f : SpanForest) : isNilF f = true ↔ f = SpanForest.nil := by
  cases f <;> simp [isNilF]

theorem tiles_topDur (f : SpanForest) : ∀ lo hi, tiles lo f hi = true →
    topLe f = true → lo ≤ hi ∧ topDur f = hi - lo := by
  induction f with
  | nil =>
      intro lo hi ht _
      simp only [tiles, decide_eq_true_eq] at ht
      subst ht
      simp [topDur]
  | grow i te ch tx rest _ ihrest =>
      intro lo hi ht hle
      simp only [tiles, Bool.and_eq_true, decide_eq_true_eq] at ht
      obtain ⟨rfl, ht⟩ := ht
      simp only [topLe, Bool.and_eq_true, decide_eq_true_eq] at hle
      obtain ⟨htx, hle⟩ := hle
      obtain ⟨h1, h2⟩ := ihrest tx hi ht hle
      constructor
      · omega
      · simp only [topDur]
        omega

theorem strictF_lt (f : SpanForest) : ∀ lo hi, strictF lo f hi = true →
    lo < hi := by
  induction f with
  | nil =>
      intro lo hi h
      simpa [strictF] using h
  | grow i te ch tx rest ihch ihrest =>
      intro lo hi h
      simp only [strictF, Bool.and_eq_true, decide_eq_true_eq] at h
      obtain ⟨⟨h1, h2⟩, h3⟩ := h
      have := ihch te tx h2
      have := ihrest tx hi h3
      omega

theorem strictF_pos (f : SpanForest) : ∀ lo hi, strictF lo f hi = true →
    posF f = true := by
  induction f with
  | nil =>
      intro lo hi _
      rfl
  | grow i te ch tx rest ihch ihrest =>
      intro lo hi h
      simp only [strictF, Bool.and_eq_true, decide_eq_true_eq] at h
      obtain ⟨⟨h1, h2⟩, h3⟩ := h
      have htx := strictF_lt ch te tx h2
      simp only [posF, Bool.and_eq_true, decide_eq_true_eq]
      exact ⟨⟨htx, ihch te tx h2⟩, ihrest tx hi h3⟩

theorem childF_eq_zero (f : SpanForest) : ∀ c a, posF f = true →
    (childF c a f = 0 ↔
      (hasChildF a f = false ∧ (c = some a → f = SpanForest.nil))) := by
  induction f with
  | nil =>
      intro c a _
      simp [childF, hasChildF]
  | grow i te ch tx rest ihch ihrest =>
      intro c a hpos
      simp only [posF, Bool.and_eq_true, decide_eq_true_eq] at hpos
      obtain ⟨⟨hte, hch⟩, hrest⟩ := hpos
      by_cases hc : c = some a
      · constructor
        · intro h0
          exfalso
          simp only [childF, if_pos hc] at h0
          omega
        · rintro ⟨_, hnil⟩
          exact SpanForest.noConfusion (hnil hc)
      · simp only [childF, if_neg hc]
        constructor
        · intro h0
          have hx : childF (some i) a ch = 0 := by omega
          have hy : childF c a rest = 0 := by omega
          obtain ⟨hx1, hx2⟩ := (ihch (some i) a hch).mp hx
          obtain ⟨hy1, _⟩ := (ihrest c a hrest).mp hy
          refine ⟨?_, fun h => absurd h hc⟩
          simp only [hasChildF, hx1, hy1, Bool.or_false]
          by_cases hia : i = a
          · have : ch = SpanForest.nil := hx2 (by rw [hia])
            subst this
            simp [isNilF]
          · simp [hia]
        · rintro ⟨hfalse, _⟩
          simp only [hasChildF, Bool.or_eq_false_iff] at hfalse
          obtain ⟨⟨hif, hch0⟩, hrest0⟩ := hfalse
          have hx : childF (some i) a ch = 0 := by
            refine (ihch (some i) a hch).mpr ⟨hch0, fun h => ?_⟩
            have hia : i = a := Option.some.inj h
            rw [if_pos hia] at hif
            exact (isNilF_iff ch).mp (by simpa using hif)
          have hy : childF c a rest = 0 :=
            (ihrest c a hrest).mpr ⟨hrest0, fun h => absurd h hc⟩
          omega

theorem durF_of_not_occurs (f : SpanForest) : ∀ a, occursF a f = false →
    durF a f = 0 := by
  induction f with
  | nil =>
      intro a _
      rfl
  | grow i te ch tx rest ihch ihrest =>
      intro a h
      simp only [occursF] at h
      by_cases hia : i = a
      · rw [if_pos hia] at h
        exact absurd h (by simp)
      · rw [if_neg hia] at h
        simp only [Bool.or_eq_false_iff] at h
        simp only [durF, if_neg hia, ihch a h.1, ihrest a h.2]

theorem durF_eq_outF (f : SpanForest) : ∀ a, nestFreeF f = true →
    durF a f = outF a f := by
  induction f with
  | nil =>
      intro a _
      rfl
  | grow i te ch tx rest ihch ihrest =>
      intro a h
      simp only [nestFreeF, Bool.and_eq_true, Bool.not_eq_true'] at h
      obtain ⟨⟨hocc, hch⟩, hrest⟩ := h
      by_cases hia : i = a
      · subst hia
        simp only [durF, outF, if_pos rfl, durF_of_not_occurs ch i hocc,
          ihrest i hrest]
        simp
      · simp only [durF, outF, if_neg hia, ihch a hch, ihrest a hrest]
        simp

/-! ### First-seen order tracking -/

/-- The trace table and the `TRACE_ID` counter agree with `seen`, the
list of identities in first-seen order: the counter equals the number
of identities seen, an identity is present iff it has been seen, and
every entry's `order` is its first-seen index plus one. -/
def SeenInv (g : Globals) (seen : List TraceId) : Prop :=
  g.trace_id = seen.length ∧
  (∀ a, presentB g a = true ↔ a ∈ seen) ∧
  (∀ a tr, lookupTrace g.trace_map a = some tr → tr.order = listIdx seen a + 1)

theorem listIdx_append_mem (l : List TraceId) (a : TraceId)
    (l2 : List TraceId) (h : a ∈ l) : listIdx (l ++ l2) a = listIdx l a := by
  induction l with
  | nil => simp at h
  | cons b rest ih =>
      by_cases hba : b = a
      · simp [listIdx, hba]
      · rcases List.mem_cons.mp h with h1 | h1
        · exact absurd h1.symm hba
        · simp [listIdx, hba, ih h1]

theorem listIdx_append_self (l : List TraceId) (a : TraceId) (h : a ∉ l) :
    listIdx (l ++ [a]) a = l.length := by
  induction l with
  | nil => simp [listIdx]
  | cons b rest ih =>
      have hba : ¬b = a := fun hba => h (by simp [hba])
      have hrest : a ∉ rest := fun hm => h (by simp [hm])
      simp [listIdx, hba, ih hrest]

theorem new_seen (id : TraceId) (now : Nat) (g : Globals)
    (seen : List TraceId) (hs : SeenInv g seen) :
    SeenInv (ScopedTrace.new id now g).2
      (if id ∈ seen then seen else seen ++ [id]) := by
  obtain ⟨h1, h2, h3⟩ := hs
  cases hl : lookupTrace g.trace_map id with
  | some tr =>
      have hmem : id ∈ seen := (h2 id).mp (by simp [presentB, hl])
      rw [if_pos hmem]
      simp only [ScopedTrace.new, hl]
      exact ⟨h1, h2, h3⟩
  | none =>
      have hmem : id ∉ seen := fun hm => by
        have := (h2 id).mpr hm
        simp [presentB, hl] at this
      rw [if_neg hmem]
      simp only [ScopedTrace.new, hl]
      refine ⟨by simp [h1], ?_, ?_⟩
      · intro a
        simp only [presentB, lookup_set]
        by_cases hia : id = a
        · subst hia
          simp
        · rw [if_neg hia]
          constructor
          · intro h
            exact List.mem_append_left _ ((h2 a).mp h)
          · intro h
            rcases List.mem_append.mp h with h | h
            · exact (h2 a).mpr h
            · simp at h
              exact absurd h.symm hia
      · intro a tr hl2
        rw [lookup_set] at hl2
        by_cases hia : id = a
        · subst hia
          rw [if_pos rfl] at hl2
          obtain rfl := Option.some.inj hl2
          simp [Trace.fresh, h1, listIdx_append_self seen id hmem]
        · rw [if_neg hia] at hl2
          have hmema : a ∈ seen := (h2 a).mp (by simp [presentB, hl2])
          rw [listIdx_append_mem seen a [id] hmema]
          exact h3 a tr hl2

theorem drop_seen (tok : ScopedTrace) (now : Nat) (g g' : Globals)
    (seen : List TraceId) (hdrop : tok.drop now g = some g')
    (hs : SeenInv g seen) : SeenInv g' seen := by
  obtain ⟨h1, h2, h3⟩ := hs
  cases hl : lookupTrace g.trace_map tok.trace_id with
  | none => simp [ScopedTrace.drop, hl] at hdrop
  | some tr =>
      have hpar : ∀ p, tok.parent = some p → presentB g p = true := by
        intro p hp
        by_cases hpi : tok.trace_id = p
        · rw [← hpi]
          simp [presentB, hl]
        · cases hl2 : lookupTrace (setTrace g.trace_map tok.trace_id
              ⟨tr.elapsed_exclusive + ((now - tok.begin : Nat) : Int),
               tok.old_elapsed_inclusive + (now - tok.begin),
               tr.hit_count + 1, tr.order⟩) p with
          | none => simp [ScopedTrace.drop, hl, hp, hl2] at hdrop
          | some ptr =>
              rw [lookup_set, if_neg hpi] at hl2
              simp [presentB, hl2]
      obtain ⟨g'', hdrop'', _, hgid, hpresEq, _, _, hord, _⟩ :=
        drop_spec tok now g tr hl hpar
      rw [hdrop''] at hdrop
      obtain rfl := Option.some.inj hdrop
      refine ⟨by rw [hgid, h1], ?_, ?_⟩
      · intro a
        rw [show presentB g'' a = presentB g a from hpresEq a]
        exact h2 a
      · intro a tr1 hlk
        have hmap := hord a
        rw [hlk] at hmap
        cases hga : lookupTrace g.trace_map a with
        | none =>
            rw [hga] at hmap
            simp at hmap
        | some tr0 =>
            rw [hga] at hmap
            simp at hmap
            rw [hmap]
            exact h3 a tr0 hga

theorem run_seen (f : SpanForest) : ∀ g seen g', runForest f g = some g' →
    SeenInv g seen → SeenInv g' (newIdsF f seen) := by
  induction f with
  | nil =>
      intro g seen g' h hs
      obtain rfl := Option.some.inj h
      simpa [newIdsF] using hs
  | grow i te ch tx rest ihch ihrest =>
      intro g seen g' hrun hs
      rcases hnew : ScopedTrace.new i te g with ⟨tok, g1⟩
      simp only [runForest, hnew] at hrun
      cases h2 : runForest ch g1 with
      | none =>
          simp [h2] at hrun
      | some g2 =>
          simp only [h2] at hrun
          cases h3 : tok.drop tx g2 with
          | none =>
              simp [h3] at hrun
          | some g3 =>
              simp only [h3] at hrun
              have hstep1 :
                  SeenInv g1 (if i ∈ seen then seen else seen ++ [i]) := by
                have := new_seen i te g seen hs
                rw [hnew] at this
                exact this
              have hstep2 := ihch g1 _ g2 h2 hstep1
              have hstep3 := drop_seen tok tx g2 g3 _ h3 hstep2
              have hstep4 := ihrest g3 _ g' hrun hstep3
              simpa [newIdsF] using hstep4

/-! ### Cycle clock calibration (`estimate_cpu_freq`) -/

/-- `get_os_timer_freq`: the OS clock counts nanoseconds. -/
def get_os_timer_freq : Nat := 1000000000

/-- The busy-wait loop of `estimate_cpu_freq`: poll successive readings
of `read_os_timer` until at least `os_wait_time` ticks have elapsed
since `os_start`; returns the elapsed tick count when the loop exits
(`none` if the supplied reading sequence runs out first, i.e. the loop
never terminates within the modelled readings). -/
def busyWait (os_start os_wait_time : Nat) : List Nat → Option Nat
  | [] => none
  | r :: rs =>
      if r - os_start < os_wait_time then busyWait os_start os_wait_time rs
      else some (r - os_start)

/-- `estimate_cpu_freq(millis_to_wait)`: the cycle counter and OS clock
readings are inputs (`cpu_start`/`cpu_end` are the two cycle readings,
`os_start` the initial OS reading, `readings` the successive OS readings
polled by the busy-wait).  Returns `os_freq * cpu_elapsed / os_elapsed`
with truncating unsigned division; `none` models the division-by-zero
panic when `os_elapsed` is zero, or a never-terminating wait. -/
def estimate_cpu_freq (millis_to_wait cpu_start cpu_end os_start : Nat)
    (readings : List Nat) : Option Nat :=
  let os_freq := get_os_timer_freq
  let os_wait_time := os_freq * millis_to_wait / 1000
  let os_elapsedO := if os_wait_time = 0 then some 0
                     else busyWait os_start os_wait_time readings
  match os_elapsedO with
  | none => none
  | some os_elapsed =>
      if os_elapsed = 0 then none
      else some (os_freq * (cpu_end - cpu_start) / os_elapsed)

/-- The rounding-to-nearest division named by the spec sentence
"returns `round(cycle_delta * nanos_per_second / wall_delta)`".  This
definition follows the spec's words and exists only to compare against
the source's truncating division. -/
def specRound (a b : Nat) : Nat := (a + b / 2) / b

theorem busyWait_le (os_start w : Nat) (rs : List Nat) :
    ∀ e, busyWait os_start w rs = some e → w ≤ e := by
  induction rs with
  | nil =>
      intro e h
      simp [busyWait] at h
  | cons r rest ih =>
      intro e h
      simp only [busyWait] at h
      by_cases hlt : r - os_start < w
      · rw [if_pos hlt] at h
        exact ih e h
      · rw [if_neg hlt] at h
        obtain rfl := Option.some.inj h
        omega

/-! ### Profiler lifecycle (`begin_profile` / `end_and_print_profile`) -/

/-- The three memoization cells of the lifecycle: the calibrated
frequency (`cpu_freq`), the trace table (`trace_map`) and the global
start timestamp (`start_ts`), each `none` until first initialized. -/
structure ProfileCells where
  freq_cell : Option Nat
  map_cell : Option TraceMap
  start_cell : Option Nat
deriving DecidableEq

/-- `start_ts`: read the memoized start timestamp, initializing it with
the current cycle count `now` if it was never set. -/
def start_ts (cell : Option Nat) (now : Nat) : Nat := cell.getD now

/-- `begin_profile`: initialize the frequency cell, the trace-table
cell and the start-timestamp cell, each only if absent.  `fresh_freq`
is the value calibration would produce if it runs now; `now` is the
cycle count read if the start cell is unset. -/
def begin_profile (c : ProfileCells) (fresh_freq now : Nat) : ProfileCells :=
  ⟨some (c.freq_cell.getD fresh_freq),
   some (c.map_cell.getD []),
   some (c.start_cell.getD now)⟩

/-- The assertion prologue of `end_and_print_profile`: read the end
cycle count `endc`, read (lazily initializing, at a later cycle count
`lazy_now`) the start timestamp, then `assert!(end > start)`.  Returns
the total elapsed cycle count when the report is printed; `none`
models the fatal, process-terminating assertion (no report). -/
def end_and_print_profile (start_cell : Option Nat) (endc lazy_now : Nat) :
    Option Nat :=
  let start := start_ts start_cell lazy_now
  if start < endc then some (endc - start) else none

/-- The call-stack tracker invariant holds in the initial state. -/
theorem trackerInv_init : TrackerInv initGlobals := by
  intro p hp
  simp [initGlobals] at hp

/-! ### Concrete sample data -/

/-- Sample identity: the whole-function span of `main`. -/
def idMain : TraceId := ⟨"main", TraceType.Fn⟩

/-- Sample identity: the loop span `work` inside `main`. -/
def idWork : TraceId := ⟨"main", TraceType.Loop "work"⟩

/-- Sample execution: `main` from cycle 1 to 4 containing one `work`
iteration from cycle 2 to 3. -/
def exNested : SpanForest :=
  SpanForest.grow idMain 1
    (SpanForest.grow idWork 2 SpanForest.nil 3 SpanForest.nil) 4
    SpanForest.nil

/-- Final state of `exNested` run from the initial state. -/
def exNestedEnd : Globals :=
  ⟨[(idMain, ⟨2, 3, 1, 1⟩), (idWork, ⟨1, 1, 1, 2⟩)], none, 2⟩

/-- Sample execution: two sequential invocations of `main`, durations 1
and 1, tiling the window from cycle 0 to cycle 2. -/
def exTwice : SpanForest :=
  SpanForest.grow idMain 0 SpanForest.nil 1
    (SpanForest.grow idMain 1 SpanForest.nil 2 SpanForest.nil)

/-- Sample execution: `main` from cycle 0 to 3 recursively re-entering
`main` from cycle 1 to 2. -/
def exRecur : SpanForest :=
  SpanForest.grow idMain 0
    (SpanForest.grow idMain 1 SpanForest.nil 2 SpanForest.nil) 3
    SpanForest.nil

/-! ### The claims -/

/-- C1: on every span exit (guard destruction) the engine computes
`duration = now - token.begin`, adds it to the span's exclusive time,
sets the span's inclusive time to the token's entry snapshot plus the
duration, increments the hit count by one, restores the call-stack
tracker to the token's parent, and exactly when the parent exists
subtracts the duration from the parent's exclusive time; every other
entry of the trace table is unchanged.  (When the parent is the span
itself the add and the subtract land on the same entry.) -/
theorem c1_exit_updates (tok : ScopedTrace) (now : Nat) (g : Globals)
    (tr : Trace)
    (hself : lookupTrace g.trace_map tok.trace_id = some tr)
    (hpar : ∀ p, tok.parent = some p → presentB g p = true) :
    ∃ g', tok.drop now g = some g' ∧
      g'.current_trace = tok.parent ∧
      g'.trace_id = g.trace_id ∧
      (∀ b, b ≠ tok.trace_id → tok.parent ≠ some b →
        lookupTrace g'.trace_map b = lookupTrace g.trace_map b) ∧
      (tok.parent ≠ some tok.trace_id →
        lookupTrace g'.trace_map tok.trace_id = some
          ⟨tr.elapsed_exclusive + ((now - tok.begin : Nat) : Int),
           tok.old_elapsed_inclusive + (now - tok.begin),
           tr.hit_count + 1, tr.order⟩) ∧
      (∀ p ptr, tok.parent = some p → p ≠ tok.trace_id →
        lookupTrace g.trace_map p = some ptr →
        lookupTrace g'.trace_map p = some
          ⟨ptr.elapsed_exclusive - ((now - tok.begin : Nat) : Int),
           ptr.elapsed_inclusive, ptr.hit_count, ptr.order⟩) ∧
      (tok.parent = some tok.trace_id →
        lookupTrace g'.trace_map tok.trace_id = some
          ⟨tr.elapsed_exclusive,
           tok.old_elapsed_inclusive + (now - tok.begin),
           tr.hit_count + 1, tr.order⟩) := by
  cases hp : tok.parent with
  | none =>
      refine ⟨⟨setTrace g.trace_map tok.trace_id
          ⟨tr.elapsed_exclusive + ((now - tok.begin : Nat) : Int),
           tok.old_elapsed_inclusive + (now - tok.begin),
           tr.hit_count + 1, tr.order⟩, none, g.trace_id⟩,
        by simp [ScopedTrace.drop, hself, hp], rfl, rfl, ?_, ?_, ?_, ?_⟩
      · intro b hb _
        rw [lookup_set, if_neg (fun h => hb h.symm)]
      · intro _
        rw [lookup_set, if_pos rfl]
      · intro p ptr hps
        exact absurd hps (by simp)
      · intro hps
        exact absurd hps (by simp)
  | some p =>
      by_cases hpi : tok.trace_id = p
      · subst hpi
        refine ⟨⟨setTrace (setTrace g.trace_map tok.trace_id
            ⟨tr.elapsed_exclusive + ((now - tok.begin : Nat) : Int),
             tok.old_elapsed_inclusive + (now - tok.begin),
             tr.hit_count + 1, tr.order⟩) tok.trace_id
            ⟨tr.elapsed_exclusive + ((now - tok.begin : Nat) : Int)
               - ((now - tok.begin : Nat) : Int),
             tok.old_elapsed_inclusive + (now - tok.begin),
             tr.hit_count + 1, tr.order⟩, some tok.trace_id, g.trace_id⟩,
          by simp [ScopedTrace.drop, hself, hp, lookup_set],
          rfl, rfl, ?_, ?_, ?_, ?_⟩
        · intro b hb _
          rw [lookup_set, if_neg (fun h => hb h.symm),
            lookup_set, if_neg (fun h => hb h.symm)]
        · intro hcontra
          exact absurd rfl hcontra
        · intro q ptr hq hqne
          exact absurd (Option.some.inj hq).symm hqne
        · intro _
          rw [lookup_set, if_pos rfl]
          simp
      · have hpres : presentB g p = true := hpar p hp
        have hpres' : ∃ ptr, lookupTrace g.trace_map p = some ptr := by
          simpa [presentB, Option.isSome_iff_exists] using hpres
        obtain ⟨ptr, hptr⟩ := hpres'
        have hm1 : lookupTrace (setTrace g.trace_map tok.trace_id
            ⟨tr.elapsed_exclusive + ((now - tok.begin : Nat) : Int),
             tok.old_elapsed_inclusive + (now - tok.begin),
             tr.hit_count + 1, tr.order⟩) p = some ptr := by
          simp [lookup_set, hpi, hptr]
        refine ⟨⟨setTrace (setTrace g.trace_map tok.trace_id
            ⟨tr.elapsed_exclusive + ((now - tok.begin : Nat) : Int),
             tok.old_elapsed_inclusive + (now - tok.begin),
             tr.hit_count + 1, tr.order⟩) p
            ⟨ptr.elapsed_exclusive - ((now - tok.begin : Nat) : Int),
             ptr.elapsed_inclusive, ptr.hit_count, ptr.order⟩,
           some p, g.trace_id⟩,
          by simp [ScopedTrace.drop, hself, hp, hm1],
          rfl, rfl, ?_, ?_, ?_, ?_⟩
        · intro b hb hbp
          have hpb : ¬p = b := fun h => hbp (by rw [h])
          rw [lookup_set, if_neg hpb, lookup_set,
            if_neg (fun h => hb h.symm)]
        · intro _
          rw [lookup_set, if_neg (fun h => hpi h.symm), lookup_set,
            if_pos rfl]
        · intro q ptr1 hq hqne hql
          rw [lookup_set]
          obtain rfl : p = q := Option.some.inj hq
          rw [if_pos rfl]
          rw [hql] at hptr
          obtain rfl := Option.some.inj hptr
          rfl
        · intro hps
          exact absurd (Option.some.inj hps).symm hpi

/-- Sample state for the C1 witness: `main` active around a nested
`work` span, both already in the table. -/
def gSample : Globals :=
  ⟨[(idMain, ⟨5, 7, 2, 1⟩), (idWork, ⟨10, 3, 1, 2⟩)], some idWork, 2⟩

/-- C1 witness: dropping the `work` guard (entered at cycle 100,
snapshot 3, parent `main`) at cycle 104 adds 4 to `work`'s exclusive
time, sets its inclusive time to 3 + 4, bumps its hit count, and
subtracts 4 from `main`'s exclusive time. -/
theorem c1_exit_updates_witness :
    ∃ g', ScopedTrace.drop ⟨idWork, some idMain, 100, 3⟩ 104 gSample =
        some g' ∧
      lookupTrace g'.trace_map idWork = some ⟨14, 7, 2, 2⟩ ∧
      lookupTrace g'.trace_map idMain = some ⟨1, 7, 2, 1⟩ := by
  obtain ⟨g', h1, hcur, hgid, hother, hselfu, hparu, hrec⟩ :=
    c1_exit_updates ⟨idWork, some idMain, 100, 3⟩ 104 gSample ⟨10, 3, 1, 2⟩
      (by decide)
      (by intro p hp; obtain rfl := Option.some.inj hp; decide)
  refine ⟨g', h1, ?_, ?_⟩
  · rw [hselfu (by decide)]
    decide
  · rw [hparu idMain ⟨5, 7, 2, 1⟩ rfl (by decide) (by decide)]
    decide

/-- C2: for every well-nested execution whose top-level spans tile the
measured window `[lo, hi]` with no gaps (no time outside any span),
after all guards have been destroyed the sum of `elapsed_exclusive`
over all spans in the trace table equals the total elapsed cycle count
of the window. -/
theorem c2_exclusive_sum (f : SpanForest) (lo hi : Nat) (g' : Globals)
    (htiles : tiles lo f hi = true) (hle : topLe f = true)
    (hrun : runForest f initGlobals = some g') :
    sumExcl g'.trace_map = ((hi - lo : Nat) : Int) := by
  obtain ⟨g'', hrun'', _, _, _, _, _, hsum⟩ :=
    runForest_master f initGlobals trackerInv_init
  rw [hrun''] at hrun
  obtain rfl := Option.some.inj hrun
  obtain ⟨h1, h2⟩ := tiles_topDur f lo hi htiles hle
  rw [hsum, h2]
  simp [initGlobals, sumExcl]

/-- Sample execution for the C2 witness: `main` from cycle 0 to 5 with
a nested `work` iteration, then a top-level `work` invocation from
cycle 5 to 9, tiling the window from 0 to 9. -/
def exTiling : SpanForest :=
  SpanForest.grow idMain 0
    (SpanForest.grow idWork 1 SpanForest.nil 3 SpanForest.nil) 5
    (SpanForest.grow idWork 5 SpanForest.nil 9 SpanForest.nil)

/-- Final state of `exTiling` run from the initial state. -/
def exTilingEnd : Globals :=
  ⟨[(idMain, ⟨3, 5, 1, 1⟩), (idWork, ⟨6, 6, 2, 2⟩)], none, 2⟩

/-- C2 witness: the exclusive times 3 (for `main`) and 6 (for `work`)
sum to the 9-cycle window. -/
theorem c2_exclusive_sum_witness :
    sumExcl exTilingEnd.trace_map = ((9 - 0 : Nat) : Int) :=
  c2_exclusive_sum exTiling 0 9 exTilingEnd (by decide) (by decide)
    (by decide)

/-- C3 counterexample: two sequential completed invocations of the same
span, each of duration 1.  After the second exit `elapsed_inclusive` is
2 — the entry snapshot plus the new duration, i.e. accumulated across
both invocations — not 1, the most recent invocation's self-plus-children
time, refuting the claim that inclusive time is reset to the latest
invocation's duration only. -/
theorem c3_counterexample :
    runForest exTwice initGlobals =
      some ⟨[(idMain, ⟨2, 2, 2, 1⟩)], none, 1⟩ ∧
    inclVal ⟨[(idMain, ⟨2, 2, 2, 1⟩)], none, 1⟩ idMain = 2 ∧
    (2 : Nat) ≠ 1 := by
  refine ⟨by decide, by decide, by decide⟩

/-- C3 amended: after every well-nested execution, a span's
`elapsed_inclusive` equals its previous value plus the total duration
of the span's completed outermost invocations — each exit writes the
entry snapshot plus that invocation's duration, so inclusive time
accumulates across sequential invocations (as exclusive time does)
instead of holding only the most recent invocation's time. -/
theorem c3_inclusive_accumulates (f : SpanForest) (g g' : Globals)
    (hInv : TrackerInv g) (hrun : runForest f g = some g') (a : TraceId) :
    inclVal g' a = inclVal g a + outF a f := by
  obtain ⟨g'', hrun'', _, _, _, _, hincl, _⟩ := runForest_master f g hInv
  rw [hrun''] at hrun
  obtain rfl := Option.some.inj hrun
  exact hincl a

/-- C3 witness: across the two unit-duration invocations of `exTwice`
the inclusive time accumulates to 0 + 2. -/
theorem c3_inclusive_accumulates_witness :
    inclVal ⟨[(idMain, ⟨2, 2, 2, 1⟩)], none, 1⟩ idMain =
      inclVal initGlobals idMain + outF idMain exTwice :=
  c3_inclusive_accumulates exTwice initGlobals _ trackerInv_init
    (by decide) idMain

/-- C4 counterexample: a span recursively re-entered within itself
(`main` from 0 to 3 containing `main` from 1 to 2).  After full unwind
its normalized exclusive time equals its inclusive time (both 3), yet a
nested child span was measured during its invocation, refuting the
claimed equivalence "a span is a leaf iff exclusive equals inclusive". -/
theorem c4_counterexample :
    runForest exRecur initGlobals =
      some ⟨[(idMain, ⟨3, 3, 2, 1⟩)], none, 1⟩ ∧
    exclVal ⟨[(idMain, ⟨3, 3, 2, 1⟩)], none, 1⟩ idMain =
      (inclVal ⟨[(idMain, ⟨3, 3, 2, 1⟩)], none, 1⟩ idMain : Int) ∧
    hasChildF idMain exRecur = true := by
  refine ⟨by decide, by decide, by decide⟩

/-- C4 amended: after full unwind of a well-nested execution whose
cycle readings strictly increase and in which no span identity is
recursively re-entered within itself, a span's signed exclusive time
equals its (unsigned, cast) inclusive time if and only if the span
never had a nested child span measured during any of its invocations. -/
theorem c4_leaf_iff (f : SpanForest) (lo hi : Nat) (g' : Globals)
    (a : TraceId) (hstrict : strictF lo f hi = true)
    (hnest : nestFreeF f = true)
    (hrun : runForest f initGlobals = some g') :
    (exclVal g' a = (inclVal g' a : Int) ↔ hasChildF a f = false) := by
  obtain ⟨g'', hrun'', _, _, _, hexcl, hincl, _⟩ :=
    runForest_master f initGlobals trackerInv_init
  rw [hrun''] at hrun
  obtain rfl := Option.some.inj hrun
  have he := hexcl a
  have hic := hincl a
  have hz1 : exclVal initGlobals a = 0 := rfl
  have hz2 : inclVal initGlobals a = 0 := rfl
  have hcz : initGlobals.current_trace = none := rfl
  rw [hz1, hcz] at he
  rw [hz2] at hic
  have hdo : durF a f = outF a f := durF_eq_outF f a hnest
  have hpos := strictF_pos f lo hi hstrict
  have hiff := childF_eq_zero f none a hpos
  constructor
  · intro heq
    rw [he, hic] at heq
    have hchild : childF none a f = 0 := by omega
    exact (hiff.mp hchild).1
  · intro hleaf
    have hchild : childF none a f = 0 :=
      hiff.mpr ⟨hleaf, fun h => absurd h (by simp)⟩
    rw [he, hic]
    omega

/-- C4 witness: in `exNested` the `work` span is a leaf and its
exclusive time (1) indeed equals its inclusive time (1). -/
theorem c4_leaf_iff_witness :
    exclVal exNestedEnd idWork = (inclVal exNestedEnd idWork : Int) ↔
      hasChildF idWork exNested = false :=
  c4_leaf_iff exNested 0 5 exNestedEnd idWork (by decide) (by decide)
    (by decide)

/-- C5: when a span identity is re-entered recursively before its outer
invocation exits, after the outermost guard of that identity is dropped
the span's inclusive time equals the value it held before the outermost
entry plus the outermost invocation's full duration: the outermost
exit's snapshot-based write supersedes the inner recursive exits'
writes, so inclusive time is never double-accumulated across
re-entrant calls. -/
theorem c5_recursive_inclusive (i : TraceId) (te : Nat) (ch : SpanForest)
    (tx : Nat) (g g' : Globals) (hInv : TrackerInv g)
    (hocc : occursF i ch = true)
    (hrun : runForest (SpanForest.grow i te ch tx SpanForest.nil) g =
      some g') :
    inclVal g' i = inclVal g i + (tx - te) := by
  obtain ⟨g'', hrun'', _, _, _, _, hincl, _⟩ :=
    runForest_master (SpanForest.grow i te ch tx SpanForest.nil) g hInv
  rw [hrun''] at hrun
  obtain rfl := Option.some.inj hrun
  have h := hincl i
  simp only [outF, if_pos rfl] at h
  simpa using h

/-- C5 witness: `main` from 0 to 3 recursively re-entering itself from
1 to 2 ends with inclusive time 0 + 3, not 0 + 3 + 1. -/
theorem c5_recursive_inclusive_witness :
    inclVal ⟨[(idMain, ⟨3, 3, 2, 1⟩)], none, 1⟩ idMain =
      inclVal initGlobals idMain + (3 - 0) :=
  c5_recursive_inclusive idMain 0
    (SpanForest.grow idMain 1 SpanForest.nil 2 SpanForest.nil) 3
    initGlobals _ trackerInv_init (by decide) (by decide)

/-- C6: `end_and_print_profile` prints no report and terminates fatally
whenever the end cycle count is not strictly greater than the start
timestamp; in particular, when `begin_profile` was never called the
start cell is unset, so the start timestamp is read lazily after the
end reading (monotone counter: `endc ≤ lazy_now`) and the assertion
always fails. -/
theorem c6_end_without_begin (cell : Option Nat) (endc lazy_now : Nat) :
    (¬ start_ts cell lazy_now < endc →
      end_and_print_profile cell endc lazy_now = none) ∧
    (cell = none → endc ≤ lazy_now →
      end_and_print_profile cell endc lazy_now = none) := by
  constructor
  · intro h
    simp [end_and_print_profile, h]
  · rintro rfl h
    simp only [end_and_print_profile, start_ts, Option.getD_none]
    rw [if_neg (by omega)]

/-- C6 witness: with the start cell never initialized and the lazy
start read at the same cycle as the end read, no report is printed. -/
theorem c6_end_without_begin_witness :
    end_and_print_profile none 5 5 = none :=
  (c6_end_without_begin none 5 5).2 rfl (le_refl 5)

/-- C7 counterexample: with a 1 ms calibration window, cycle delta
2000000 and wall delta 3000000 ns, the code returns the truncated
quotient 666666666 while `round(cycle_delta * nanos_per_second /
wall_delta)` is 666666667, refuting the claimed rounding to nearest. -/
theorem c7_counterexample :
    estimate_cpu_freq 1 0 2000000 0 [3000000] = some 666666666 ∧
    specRound (get_os_timer_freq * 2000000) 3000000 = 666666667 ∧
    (666666666 : Nat) ≠ 666666667 := by
  refine ⟨by decide, by decide, by decide⟩

/-- C7 amended: `estimate_cpu_freq(millis)` busy-waits until at least
`millis` milliseconds (`1000000 * millis` nanoseconds) of wall time
have elapsed on the OS nanosecond clock, and for every resulting
elapsed wall delta `e > 0` returns the truncating integer quotient
`nanos_per_second * cycle_delta / e` (floor division, not rounding to
nearest). -/
theorem c7_estimate_floor (millis cpu_start cpu_end os_start : Nat)
    (readings : List Nat) (e : Nat) (hm : 0 < millis)
    (hw : busyWait os_start (1000000 * millis) readings = some e) :
    1000000 * millis ≤ e ∧
    estimate_cpu_freq millis cpu_start cpu_end os_start readings =
      some (get_os_timer_freq * (cpu_end - cpu_start) / e) := by
  have hwait : get_os_timer_freq * millis / 1000 = 1000000 * millis := by
    show 1000000000 * millis / 1000 = 1000000 * millis
    rw [show (1000000000 : Nat) = 1000 * 1000000 from rfl, mul_assoc,
      Nat.mul_div_cancel_left _ (by norm_num)]
  have hle := busyWait_le os_start (1000000 * millis) readings e hw
  have hne : ¬(1000000 * millis = 0) := by
    have : 0 < 1000000 * millis := by positivity
    omega
  have hez : ¬(e = 0) := by omega
  refine ⟨hle, ?_⟩
  simp only [estimate_cpu_freq, hwait, if_neg hne, hw, if_neg hez]

/-- C7 witness: calibrating for 1 ms with one OS poll at 3000000 ns
waits at least 1000000 ns and returns the floor quotient. -/
theorem c7_estimate_floor_witness :
    1000000 * 1 ≤ 3000000 ∧
    estimate_cpu_freq 1 0 2000000 0 [3000000] =
      some (get_os_timer_freq * (2000000 - 0) / 3000000) :=
  c7_estimate_floor 1 0 2000000 0 [3000000] 3000000 (by decide) (by decide)

/-- C8: after any well-nested execution from the initial state, every
trace-table entry's `order` equals the position of its identity in the
first-seen sequence of the execution plus one: the first never-seen
identity gets the smallest order, each subsequent never-seen identity a
strictly larger one, and re-entry never changes an existing order. -/
theorem c8_order_first_seen (f : SpanForest) (g' : Globals)
    (hrun : runForest f initGlobals = some g') :
    ∀ a tr, lookupTrace g'.trace_map a = some tr →
      a ∈ newIdsF f [] ∧ tr.order = listIdx (newIdsF f []) a + 1 := by
  have hseen : SeenInv initGlobals [] := by
    refine ⟨rfl, ?_, ?_⟩
    · intro a
      simp [presentB, initGlobals, lookupTrace]
    · intro a tr h
      simp [initGlobals, lookupTrace] at h
  obtain ⟨h1, h2, h3⟩ := run_seen f initGlobals [] g' hrun hseen
  intro a tr hl
  exact ⟨(h2 a).mp (by simp [presentB, hl]), h3 a tr hl⟩

/-- C8 witness: in `exNested`, `work` is the second identity first seen
and its entry carries order 2 = 1 + 1. -/
theorem c8_order_first_seen_witness :
    idWork ∈ newIdsF exNested [] ∧
    (⟨1, 1, 1, 2⟩ : Trace).order = listIdx (newIdsF exNested []) idWork + 1 :=
  c8_order_first_seen exNested exNestedEnd (by decide) idWork ⟨1, 1, 1, 2⟩
    (by decide)

/-- C9: calling `begin_profile` when all three memoization cells are
already initialized (as after a first call) is a no-op: the calibrated
frequency and start timestamp keep their first values, and the trace
table — whatever entries it accumulated in between — is neither
recreated nor cleared. -/
theorem c9_second_begin_noop (c : ProfileCells) (fresh_freq now : Nat)
    (fv sv : Nat) (mv : TraceMap)
    (hf : c.freq_cell = some fv) (hm : c.map_cell = some mv)
    (hs : c.start_cell = some sv) :
    begin_profile c fresh_freq now = c := by
  cases c
  simp_all [begin_profile]

/-- C9 witness: a second `begin_profile` over an initialized state with
one accumulated trace entry changes nothing. -/
theorem c9_second_begin_noop_witness :
    begin_profile ⟨some 3000000000, some [(idMain, ⟨1, 1, 1, 1⟩)], some 42⟩
      7 8 = ⟨some 3000000000, some [(idMain, ⟨1, 1, 1, 1⟩)], some 42⟩ :=
  c9_second_begin_noop _ 7 8 3000000000 42 [(idMain, ⟨1, 1, 1, 1⟩)]
    rfl rfl rfl

/-- C10: under the guard discipline (every guard created by
`ScopedTrace::new` and dropped in well-nested LIFO order), the trace
table lookups in the guard's destructor never fail: every well-nested
execution from the initial state runs to completion without either
`unwrap` panicking. -/
theorem c10_no_panic (f : SpanForest) :
    ∃ g', runForest f initGlobals = some g' := by
  obtain ⟨g', h, _⟩ := runForest_master f initGlobals trackerInv_init
  exact ⟨g', h⟩
